import Mathlib

/-!
Verification of the k-mer indexing and overlap machinery of align.py.

The Python sources embedded here are src/biseqt/kmers.py (k-mer encoder,
cache and index), src/align/assembly.py (the overlap edge decision of
OverlapBuilder.build) and src/experiments/band_radius.py (the erf band
radius cutoff).  Machine integers are modelled as Nat/Int; SQLite tables
are modelled as association lists in insertion order, which is the order
an un-indexed SELECT scans rows.
-/

namespace AlignPy

/-- Digit characters used by kmer_as_int (src/biseqt/kmers.py line 32). -/
def DIGITS : String := "0123456789abcdefghijklmnopqrstuvwxyz"

/-- Modelled from the spec: the Sequence class (biseqt.sequence) is not under
src/.  Per spec section 3 a sequence is an ordered array of letter indices
over an alphabet of size sigma, and its content identifier is a stable hash
of the index array, modelled here as the index array itself. -/
structure Sequence where
  contents : List Nat
  sigma : Nat
deriving DecidableEq, Repr

/-- Modelled from the spec: content identifier, a stable (injective) key
derived from the index array. -/
def Sequence.content_id (s : Sequence) : List Nat := s.contents

/-- Embeds kmer_as_int (src/biseqt/kmers.py lines 36-81).  The Python code
renders each letter index as a DIGITS character and parses the string as an
integer in base len(alphabet); for letter indices below the base this is
base-sigma evaluation of the digits, most significant first. -/
def kmer_as_int (contents : List Nat) (sigma : Nat) : Nat :=
  contents.foldl (fun acc c => acc * sigma + c) 0

/-- Embeds as_kmer_seq (src/biseqt/kmers.py lines 84-99): kmer integers of
all windows of length wordlen.  Python range(len(seq) - wordlen + 1) is
empty when len(seq) - wordlen + 1 <= 0, hence length + 1 - wordlen in Nat. -/
def as_kmer_seq (seq : Sequence) (wordlen : Nat) : List Nat :=
  (List.range (seq.contents.length + 1 - wordlen)).map
    (fun pos => kmer_as_int ((seq.contents.drop pos).take wordlen) seq.sigma)

/-- The wordlen base-sigma digits of n, most significant first: the
digit-decoding direction of the round trip stated by the spec. -/
def int_as_kmer (n sigma wordlen : Nat) : List Nat :=
  (List.range wordlen).reverse.map (fun i => n / sigma ^ i % sigma)

theorem kmer_as_int_nil (sigma : Nat) : kmer_as_int [] sigma = 0 := rfl

theorem kmer_foldl_shift (sigma : Nat) (u : List Nat) :
    ∀ a : Nat, u.foldl (fun acc c => acc * sigma + c) a =
      a * sigma ^ u.length + u.foldl (fun acc c => acc * sigma + c) 0 := by
  induction u with
  | nil => intro a; simp
  | cons c u ih =>
    intro a
    simp only [List.foldl_cons, List.length_cons]
    rw [ih (a * sigma + c), ih (0 * sigma + c)]
    ring

theorem kmer_as_int_cons (c : Nat) (u : List Nat) (sigma : Nat) :
    kmer_as_int (c :: u) sigma = c * sigma ^ u.length + kmer_as_int u sigma := by
  unfold kmer_as_int
  simp only [List.foldl_cons]
  rw [kmer_foldl_shift sigma u (0 * sigma + c)]
  ring_nf

theorem kmer_as_int_lt (u : List Nat) (sigma : Nat) (h : ∀ c ∈ u, c < sigma) :
    kmer_as_int u sigma < sigma ^ u.length := by
  induction u with
  | nil => simp [kmer_as_int_nil]
  | cons c u ih =>
    have hc : c < sigma := h c (by simp)
    have hu : kmer_as_int u sigma < sigma ^ u.length :=
      ih (fun x hx => h x (by simp [hx]))
    rw [kmer_as_int_cons]
    calc c * sigma ^ u.length + kmer_as_int u sigma
        < c * sigma ^ u.length + sigma ^ u.length := by omega
      _ = (c + 1) * sigma ^ u.length := by ring
      _ ≤ sigma * sigma ^ u.length := by
          exact Nat.mul_le_mul_right _ (by omega)
      _ = sigma ^ (u.length + 1) := by ring

theorem int_as_kmer_zero (n sigma : Nat) : int_as_kmer n sigma 0 = [] := rfl

theorem int_as_kmer_round (u : List Nat) (sigma : Nat)
    (h : ∀ c ∈ u, c < sigma) :
    int_as_kmer (kmer_as_int u sigma) sigma u.length = u := by
  induction u with
  | nil => rfl
  | cons c u ih =>
    have hc : c < sigma := h c (by simp)
    have hsig : 0 < sigma := by omega
    have hu : kmer_as_int u sigma < sigma ^ u.length :=
      kmer_as_int_lt u sigma (fun x hx => h x (by simp [hx]))
    have hn : kmer_as_int (c :: u) sigma =
        kmer_as_int u sigma + c * sigma ^ u.length := by
      rw [kmer_as_int_cons]; ring
    unfold int_as_kmer
    simp only [List.length_cons]
    rw [List.range_succ, List.reverse_append]
    simp only [List.reverse_cons, List.reverse_nil, List.nil_append,
      List.cons_append, List.map_cons]
    rw [List.cons_eq_cons]
    constructor
    · -- leading digit
      rw [hn, Nat.add_mul_div_right _ _ (pow_pos hsig _),
        Nat.div_eq_of_lt hu]
      simp [Nat.mod_eq_of_lt hc]
    · -- remaining digits agree with those of the tail
      have hmap : ∀ i ∈ (List.range u.length).reverse,
          kmer_as_int (c :: u) sigma / sigma ^ i % sigma =
            kmer_as_int u sigma / sigma ^ i % sigma := by
        intro i hi
        have hi2 : i < u.length := by
          have := List.mem_reverse.mp hi
          exact List.mem_range.mp this
        have hpow : sigma ^ u.length = sigma ^ (u.length - i) * sigma ^ i := by
          rw [← pow_add]
          congr 1
          omega
        have hsplit : kmer_as_int (c :: u) sigma =
            kmer_as_int u sigma + c * sigma ^ (u.length - i) * sigma ^ i := by
          rw [hn, hpow]; ring
        rw [hsplit, Nat.add_mul_div_right _ _ (pow_pos hsig _)]
        have hfac : c * sigma ^ (u.length - i) =
            c * sigma ^ (u.length - i - 1) * sigma := by
          have hexp : u.length - i = (u.length - i - 1) + 1 := by omega
          conv_lhs => rw [hexp]
          ring
        rw [hfac, Nat.add_mul_mod_self_right]
      rw [List.map_congr_left hmap]
      exact ih (fun x hx => h x (by simp [hx]))

theorem kmer_as_int_inj (u v : List Nat) (sigma : Nat)
    (hu : ∀ c ∈ u, c < sigma) (hv : ∀ c ∈ v, c < sigma)
    (hlen : u.length = v.length)
    (heq : kmer_as_int u sigma = kmer_as_int v sigma) : u = v := by
  have h1 := int_as_kmer_round u sigma hu
  have h2 := int_as_kmer_round v sigma hv
  rw [heq, hlen, h2] at h1
  exact h1.symm

/-- C4: kmer_as_int treats the w letter indices as base-sigma digits, most
significant first; decoding the integer back into w base-sigma digits
reproduces the letter indices exactly, and hence distinct digit tuples of
the same length map to distinct integers. -/
theorem kmer_as_int_encode_decode (u v : List Nat) (sigma : Nat)
    (hu : ∀ c ∈ u, c < sigma) (hv : ∀ c ∈ v, c < sigma)
    (hlen : u.length = v.length) :
    int_as_kmer (kmer_as_int u sigma) sigma u.length = u ∧
      (kmer_as_int u sigma = kmer_as_int v sigma → u = v) :=
  ⟨int_as_kmer_round u sigma hu, kmer_as_int_inj u v sigma hu hv hlen⟩

theorem kmer_as_int_encode_decode_witness :
    int_as_kmer (kmer_as_int [0, 2, 0] 4) 4 3 = [0, 2, 0] ∧
      (kmer_as_int [0, 2, 0] 4 = kmer_as_int [1, 0, 0] 4 →
        ([0, 2, 0] : List Nat) = [1, 0, 0]) :=
  kmer_as_int_encode_decode [0, 2, 0] [1, 0, 0] 4
    (by decide) (by decide) rfl

/-- C9: for a sequence shorter than the word length the window encoding is
the empty list, and in general its length is max 0 (n - w + 1). -/
theorem as_kmer_seq_length (S : Sequence) (w : Nat) :
    (S.contents.length < w → as_kmer_seq S w = []) ∧
      ((as_kmer_seq S w).length : Int) =
        max 0 ((S.contents.length : Int) - w + 1) := by
  constructor
  · intro h
    unfold as_kmer_seq
    have hz : S.contents.length + 1 - w = 0 := by omega
    rw [hz]
    rfl
  · unfold as_kmer_seq
    rw [List.length_map, List.length_range]
    rcases le_or_lt w S.contents.length with h | h
    · rw [max_eq_right (by omega : (0 : Int) ≤ (S.contents.length : Int) - w + 1)]
      omega
    · rw [max_eq_left (by omega : (S.contents.length : Int) - w + 1 ≤ 0)]
      omega

theorem as_kmer_seq_length_witness :
    ((Sequence.mk [0, 1] 4).contents.length < 5 →
      as_kmer_seq (Sequence.mk [0, 1] 4) 5 = []) ∧
      ((as_kmer_seq (Sequence.mk [0, 1] 4) 5).length : Int) =
        max 0 (((Sequence.mk [0, 1] 4).contents.length : Int) - 5 + 1) :=
  as_kmer_seq_length (Sequence.mk [0, 1] 4) 5

/-- u precedes v in lexicographic order of digit tuples: at the first
position where they differ, u has the smaller digit. -/
def lexLt (u v : List Nat) : Prop :=
  List.Lex (fun a b : Nat => a < b) u v

/-- u precedes v in colexicographic order of digit tuples: at the last
position where they differ, u has the smaller digit; equivalently,
lexicographic order of the reversed tuples. -/
def colexLt (u v : List Nat) : Prop :=
  List.Lex (fun a b : Nat => a < b) u.reverse v.reverse

instance (u v : List Nat) : Decidable (lexLt u v) := by
  unfold lexLt; infer_instance

instance (u v : List Nat) : Decidable (colexLt u v) := by
  unfold colexLt; infer_instance

theorem kmer_as_int_head_lt (c d : Nat) (u v : List Nat) (sigma : Nat)
    (hu : ∀ x ∈ u, x < sigma) (hlen : u.length = v.length) (hcd : c < d) :
    kmer_as_int (c :: u) sigma < kmer_as_int (d :: v) sigma := by
  rw [kmer_as_int_cons, kmer_as_int_cons, ← hlen]
  have h1 : kmer_as_int u sigma < sigma ^ u.length := kmer_as_int_lt u sigma hu
  have h2 : (c + 1) * sigma ^ u.length ≤ d * sigma ^ u.length :=
    Nat.mul_le_mul_right _ (by omega)
  calc c * sigma ^ u.length + kmer_as_int u sigma
      < c * sigma ^ u.length + sigma ^ u.length := by omega
    _ = (c + 1) * sigma ^ u.length := by ring
    _ ≤ d * sigma ^ u.length := h2
    _ ≤ d * sigma ^ u.length + kmer_as_int v sigma := Nat.le_add_right _ _

/-- C6 counterexample: with sigma = 4, kmer_as_int [0,3] = 3 is below
kmer_as_int [1,0] = 4, yet [0,3] does not precede [1,0] in colex order
(the last digits give 3 > 0), so integer order is not colex order. -/
theorem kmer_as_int_not_colex :
    ¬ (kmer_as_int [0, 3] 4 < kmer_as_int [1, 0] 4 ↔ colexLt [0, 3] [1, 0]) := by
  decide

/-- C6 amended: for a fixed word length, comparing two kmers by their
kmer_as_int encodings orders them identically to the LEXICOGRAPHIC order of
their digit tuples (the spec says colex; the encoding is most significant
digit first, which is lex). -/
theorem kmer_as_int_lt_iff_lex (u v : List Nat) (sigma : Nat)
    (hu : ∀ c ∈ u, c < sigma) (hv : ∀ c ∈ v, c < sigma)
    (hlen : u.length = v.length) :
    kmer_as_int u sigma < kmer_as_int v sigma ↔ lexLt u v := by
  induction u generalizing v with
  | nil =>
    have hv0 : v = [] := List.length_eq_zero.mp (by simpa using hlen.symm)
    subst hv0
    apply iff_of_false (lt_irrefl _)
    intro h
    unfold lexLt at h
    cases h
  | cons c u ih =>
    cases v with
    | nil => simp at hlen
    | cons d v =>
      have hlen2 : u.length = v.length := by simpa using hlen
      have hu2 : ∀ x ∈ u, x < sigma := fun x hx => hu x (by simp [hx])
      have hv2 : ∀ x ∈ v, x < sigma := fun x hx => hv x (by simp [hx])
      rcases Nat.lt_trichotomy c d with hcd | hcd | hcd
      · exact iff_of_true (kmer_as_int_head_lt c d u v sigma hu2 hlen2 hcd)
          (List.Lex.rel hcd)
      · subst hcd
        rw [kmer_as_int_cons, kmer_as_int_cons, ← hlen2, add_lt_add_iff_left]
        unfold lexLt
        rw [List.Lex.cons_iff]
        exact ih v hu2 hv2 hlen2
      · apply iff_of_false
        · have := kmer_as_int_head_lt d c v u sigma hv2 hlen2.symm hcd
          omega
        · intro hlex
          unfold lexLt at hlex
          cases hlex with
          | rel h => omega
          | cons h => omega

theorem kmer_as_int_lt_iff_lex_witness :
    kmer_as_int [0, 3] 4 < kmer_as_int [1, 0] 4 ↔ lexLt [0, 3] [1, 0] :=
  kmer_as_int_lt_iff_lex [0, 3] [1, 0] 4 (by decide) (by decide) rfl

/-- A row of the kmers table of KmerIndex (kmer, seqid, pos). -/
structure Row where
  kmer : Nat
  seqid : Nat
  pos : Nat
deriving DecidableEq, Repr

/-- The persistent state of a KmerIndex: the kmer_indexed log table
(content id, autoincrement seqid) and the kmers hits table, both kept in
insertion (rowid) order. -/
structure KmerIndexState where
  log : List (List Nat × Nat)
  rows : List Row
deriving DecidableEq, Repr

def emptyIndex : KmerIndexState := ⟨[], []⟩

/-- First value associated to a key, scanning in insertion order: the first
row returned by SELECT ... WHERE seq = cid. -/
def lookupFirst {α : Type} : List (List Nat × α) → List Nat → Option α
  | [], _ => none
  | (c, v) :: rest, cid => if c = cid then some v else lookupFirst rest cid

/-- The rows inserted for one sequence by KmerIndex.index_kmers:
executemany over (kmer, seqid, pos) for pos, kmer in enumerate(kmer_seq). -/
def seqRows (seq : Sequence) (wordlen seqid : Nat) : List Row :=
  (as_kmer_seq seq wordlen).enum.map (fun pk => ⟨pk.2, seqid, pk.1⟩)

/-- Embeds KmerIndex.index_kmers (src/biseqt/kmers.py lines 297-330): if the
content id is already in the log table, return its seqid unchanged; else
autoincrement a fresh seqid, log the content id and insert one row per
enumerated kmer of the sequence. -/
def index_kmers (idx : KmerIndexState) (wordlen : Nat) (seq : Sequence) :
    Nat × KmerIndexState :=
  match lookupFirst idx.log seq.content_id with
  | some seqid => (seqid, idx)
  | none =>
    let seqid := idx.log.length + 1
    (seqid,
      { log := idx.log ++ [(seq.content_id, seqid)],
        rows := idx.rows ++ seqRows seq wordlen seqid })

/-- Embeds KmerIndex.hits (src/biseqt/kmers.py lines 341-354): all
(seqid, pos) pairs of rows whose kmer column equals the given kmer. -/
def hits (idx : KmerIndexState) (kmer : Nat) : List (Nat × Nat) :=
  (idx.rows.filter (fun r => r.kmer == kmer)).map (fun r => (r.seqid, r.pos))

/-- Modelled from the spec: KmerIndex.seeds is not under src/ (only hits and
index_kmers are); per spec sections 4.C and 4.D it yields, for every kmer
shared by the two sequences, the cross product of the hit positions of the
first sequence with those of the second. -/
def seeds (idx : KmerIndexState) (ida idb : Nat) : List (Nat × Nat) :=
  (idx.rows.map (fun r1 =>
    if r1.seqid = ida then
      idx.rows.filterMap (fun r2 =>
        if r2.seqid = idb ∧ r2.kmer = r1.kmer then some (r1.pos, r2.pos)
        else none)
    else [])).flatten

theorem lookupFirst_append {α : Type} (l1 l2 : List (List Nat × α))
    (cid : List Nat) :
    lookupFirst (l1 ++ l2) cid =
      match lookupFirst l1 cid with
      | some v => some v
      | none => lookupFirst l2 cid := by
  induction l1 with
  | nil => rfl
  | cons p rest ih =>
    rcases p with ⟨c, v⟩
    by_cases h : c = cid
    · simp [lookupFirst, h]
    · simp [lookupFirst, h, ih]

/-- C2: inserting a sequence a second time returns the seqid assigned by the
first insertion and leaves the index state (hence every hits list)
unchanged. -/
theorem index_kmers_idempotent (idx : KmerIndexState) (w : Nat) (S : Sequence) :
    index_kmers (index_kmers idx w S).2 w S =
      ((index_kmers idx w S).1, (index_kmers idx w S).2) ∧
      ∀ k, hits (index_kmers (index_kmers idx w S).2 w S).2 k =
        hits (index_kmers idx w S).2 k := by
  have hmain : index_kmers (index_kmers idx w S).2 w S =
      ((index_kmers idx w S).1, (index_kmers idx w S).2) := by
    cases h : lookupFirst idx.log S.content_id with
    | some i =>
      unfold index_kmers
      rw [h]
      simp [h]
    | none =>
      unfold index_kmers
      rw [h]
      simp only
      rw [lookupFirst_append, h]
      simp [lookupFirst]
  refine ⟨hmain, fun k => ?_⟩
  rw [hmain]

/-- The persistent state of a KmerCache: the seq_kmers table as rows of
(content id, stored kmer list) in insertion order.  The Python code stores
repr of the list and evals it back; the repr/eval round trip is modelled by
storing the list itself. -/
structure KmerCacheState where
  entries : List (List Nat × List Nat)
deriving DecidableEq, Repr

def emptyCache : KmerCacheState := ⟨[]⟩

/-- Embeds KmerCache.as_kmer_seq (src/biseqt/kmers.py lines 208-234): on a
hit return the first stored row for the content id; on a miss compute
as_kmer_seq, persist it and return it. -/
def cache_as_kmer_seq (cache : KmerCacheState) (wordlen : Nat)
    (seq : Sequence) : List Nat × KmerCacheState :=
  match lookupFirst cache.entries seq.content_id with
  | some ks => (ks, cache)
  | none =>
    let ks := as_kmer_seq seq wordlen
    (ks, ⟨cache.entries ++ [(seq.content_id, ks)]⟩)

/-- Every entry of the cache store is the kmer array of the sequence whose
content id keys it, for the fixed (wordlen, sigma) the store serves. -/
def CacheConsistent (wordlen sigma : Nat) (cache : KmerCacheState) : Prop :=
  ∀ e ∈ cache.entries, e.2 = as_kmer_seq ⟨e.1, sigma⟩ wordlen

theorem lookupFirst_mem {α : Type} (l : List (List Nat × α)) (cid : List Nat)
    (v : α) (h : lookupFirst l cid = some v) : (cid, v) ∈ l := by
  induction l with
  | nil => cases h
  | cons p rest ih =>
    rcases p with ⟨c, v2⟩
    by_cases hc : c = cid
    · subst hc
      rw [show lookupFirst ((c, v2) :: rest) c = some v2 from if_pos rfl] at h
      injection h with h2
      subst h2
      exact List.mem_cons_self _ _
    · rw [show lookupFirst ((c, v2) :: rest) cid = lookupFirst rest cid from
        if_neg hc] at h
      exact List.mem_cons_of_mem _ (ih h)

/-- C3: against a consistent store (the empty cold-start store in
particular), the cached kmers lookup returns exactly as_kmer_seq(S, w), and
the store stays consistent, so every later call against it agrees too. -/
theorem cache_as_kmer_seq_round_trip (cache : KmerCacheState) (w : Nat)
    (S : Sequence) (h : CacheConsistent w S.sigma cache) :
    (cache_as_kmer_seq cache w S).1 = as_kmer_seq S w ∧
      CacheConsistent w S.sigma (cache_as_kmer_seq cache w S).2 := by
  cases hl : lookupFirst cache.entries S.content_id with
  | some ks =>
    have hmem := lookupFirst_mem _ _ _ hl
    have hks : ks = as_kmer_seq ⟨S.content_id, S.sigma⟩ w := h _ hmem
    unfold cache_as_kmer_seq
    rw [hl]
    exact ⟨hks, h⟩
  | none =>
    unfold cache_as_kmer_seq
    rw [hl]
    refine ⟨rfl, ?_⟩
    intro e he
    rcases List.mem_append.mp he with hold | hnew
    · exact h _ hold
    · rcases List.mem_singleton.mp hnew with rfl
      rfl

theorem cache_as_kmer_seq_round_trip_witness :
    (cache_as_kmer_seq (KmerCacheState.mk []) 1 (Sequence.mk [0, 1] 4)).1 =
        as_kmer_seq (Sequence.mk [0, 1] 4) 1 ∧
      CacheConsistent 1 4
        (cache_as_kmer_seq (KmerCacheState.mk []) 1 (Sequence.mk [0, 1] 4)).2 :=
  cache_as_kmer_seq_round_trip (KmerCacheState.mk []) 1 (Sequence.mk [0, 1] 4)
    (by intro e he; cases he)

theorem as_kmer_seq_len (seq : Sequence) (w : Nat) :
    (as_kmer_seq seq w).length = seq.contents.length + 1 - w := by
  unfold as_kmer_seq
  rw [List.length_map, List.length_range]

theorem as_kmer_seq_getElem (seq : Sequence) (w p : Nat)
    (hp : p < seq.contents.length + 1 - w) :
    (as_kmer_seq seq w)[p]? =
      some (kmer_as_int ((seq.contents.drop p).take w) seq.sigma) := by
  unfold as_kmer_seq
  rw [List.getElem?_map, List.getElem?_range hp]
  rfl

theorem mem_seqRows {seq : Sequence} {w sid : Nat} {r : Row} :
    r ∈ seqRows seq w sid ↔
      r.seqid = sid ∧ r.pos + w ≤ seq.contents.length ∧
        r.kmer = kmer_as_int ((seq.contents.drop r.pos).take w) seq.sigma := by
  unfold seqRows
  rw [List.mem_map]
  constructor
  · rintro ⟨pk, hpk, rfl⟩
    have h1 : (as_kmer_seq seq w)[pk.1]? = some pk.2 :=
      List.mem_enum_iff_getElem?.mp hpk
    rcases List.getElem?_eq_some_iff.mp h1 with ⟨hlt, _⟩
    rw [as_kmer_seq_len] at hlt
    have h2 := as_kmer_seq_getElem seq w pk.1 hlt
    rw [h2, Option.some.injEq] at h1
    refine ⟨rfl, ?_, h1.symm⟩
    show pk.1 + w ≤ seq.contents.length
    omega
  · obtain ⟨rk, rs, rp⟩ := r
    rintro ⟨h1, h2, h3⟩
    simp only at h1 h2 h3
    subst h1
    refine ⟨(rp, rk), ?_, rfl⟩
    apply List.mem_enum_iff_getElem?.mpr
    rw [as_kmer_seq_getElem seq w rp (by omega)]
    rw [h3]

theorem mem_seeds_iff {idx : KmerIndexState} {ida idb i j : Nat} :
    (i, j) ∈ seeds idx ida idb ↔
      ∃ r1 ∈ idx.rows, ∃ r2 ∈ idx.rows,
        r1.seqid = ida ∧ r2.seqid = idb ∧ r2.kmer = r1.kmer ∧
          r1.pos = i ∧ r2.pos = j := by
  unfold seeds
  rw [List.mem_flatten]
  constructor
  · rintro ⟨l, hl, hmem⟩
    rcases List.mem_map.mp hl with ⟨r1, hr1, rfl⟩
    by_cases h : r1.seqid = ida
    · rw [if_pos h] at hmem
      rcases List.mem_filterMap.mp hmem with ⟨r2, hr2, hsome⟩
      by_cases h2 : r2.seqid = idb ∧ r2.kmer = r1.kmer
      · rw [if_pos h2] at hsome
        rw [Option.some.injEq, Prod.mk.injEq] at hsome
        exact ⟨r1, hr1, r2, hr2, h, h2.1, h2.2, hsome.1, hsome.2⟩
      · rw [if_neg h2] at hsome
        cases hsome
    · rw [if_neg h] at hmem
      cases hmem
  · rintro ⟨r1, hr1, r2, hr2, ha, hb, hk, hi, hj⟩
    refine ⟨_, List.mem_map.mpr ⟨r1, hr1, rfl⟩, ?_⟩
    rw [if_pos ha]
    apply List.mem_filterMap.mpr
    refine ⟨r2, hr2, ?_⟩
    rw [if_pos ⟨hb, hk⟩, hi, hj]

/-- The windows of S at i and of T at j carry equal kmer integers in the
index exactly when the windows are equal as letter lists. -/
theorem exists_window_pair_iff (S T : Sequence) (w a b i j : Nat)
    (hsig : T.sigma = S.sigma)
    (hS : ∀ c ∈ S.contents, c < S.sigma)
    (hT : ∀ c ∈ T.contents, c < T.sigma) :
    (∃ r1 ∈ seqRows S w a, ∃ r2 ∈ seqRows T w b,
        r1.seqid = a ∧ r2.seqid = b ∧ r2.kmer = r1.kmer ∧
          r1.pos = i ∧ r2.pos = j) ↔
      (i + w ≤ S.contents.length ∧ j + w ≤ T.contents.length ∧
        (S.contents.drop i).take w = (T.contents.drop j).take w) := by
  constructor
  · rintro ⟨r1, hr1, r2, hr2, ha, hb, hk, hi, hj⟩
    subst hi
    subst hj
    rcases mem_seqRows.mp hr1 with ⟨_, h1len, h1k⟩
    rcases mem_seqRows.mp hr2 with ⟨_, h2len, h2k⟩
    refine ⟨h1len, h2len, ?_⟩
    apply kmer_as_int_inj _ _ S.sigma
    · intro c hcm
      exact hS c (List.mem_of_mem_drop (List.mem_of_mem_take hcm))
    · intro c hcm
      rw [← hsig]
      exact hT c (List.mem_of_mem_drop (List.mem_of_mem_take hcm))
    · rw [List.length_take, List.length_drop, List.length_take,
        List.length_drop]
      omega
    · rw [← h1k, ← hk, h2k, hsig]
  · rintro ⟨h1, h2, heqw⟩
    refine ⟨⟨kmer_as_int ((S.contents.drop i).take w) S.sigma, a, i⟩,
      mem_seqRows.mpr ⟨rfl, h1, rfl⟩,
      ⟨kmer_as_int ((T.contents.drop j).take w) T.sigma, b, j⟩,
      mem_seqRows.mpr ⟨rfl, h2, rfl⟩, rfl, rfl, ?_, rfl, rfl⟩
    simp only
    rw [hsig, heqw]

/-- C1: after inserting S and T into an empty KmerIndex, (i, j) is yielded
by seeds exactly when the w-windows of S at i and of T at j exist and have
identical contents. -/
theorem seeds_iff_equal_windows (S T : Sequence) (w : Nat) (hw : 0 < w)
    (hsig : T.sigma = S.sigma)
    (hS : ∀ c ∈ S.contents, c < S.sigma)
    (hT : ∀ c ∈ T.contents, c < T.sigma) (i j : Nat) :
    ((i, j) ∈
      seeds (index_kmers (index_kmers emptyIndex w S).2 w T).2
        (index_kmers emptyIndex w S).1
        (index_kmers (index_kmers emptyIndex w S).2 w T).1) ↔
      (i + w ≤ S.contents.length ∧ j + w ≤ T.contents.length ∧
        (S.contents.drop i).take w = (T.contents.drop j).take w) := by
  have h1 : index_kmers emptyIndex w S =
      (1, ⟨[(S.contents, 1)], seqRows S w 1⟩) := rfl
  by_cases hc : T.contents = S.contents
  · have hTS : T = S := by
      obtain ⟨sc, ss⟩ := S
      obtain ⟨tc, ts⟩ := T
      simp only at hsig hc
      rw [hsig, hc]
    subst hTS
    have hst2 : index_kmers (⟨[(T.contents, 1)], seqRows T w 1⟩ :
        KmerIndexState) w T = (1, ⟨[(T.contents, 1)], seqRows T w 1⟩) := by
      unfold index_kmers
      rw [show lookupFirst [(T.contents, 1)] T.content_id = some 1 by
        simp [lookupFirst, Sequence.content_id]]
    simp only [h1, hst2]
    rw [mem_seeds_iff]
    exact exists_window_pair_iff T T w 1 1 i j rfl hT hT
  · have hst2 : index_kmers (⟨[(S.contents, 1)], seqRows S w 1⟩ :
        KmerIndexState) w T =
        (2, ⟨[(S.contents, 1), (T.contents, 2)],
          seqRows S w 1 ++ seqRows T w 2⟩) := by
      unfold index_kmers
      rw [show lookupFirst [(S.contents, 1)] T.content_id = none by
        rw [show (Sequence.content_id T) = T.contents from rfl]
        rw [show lookupFirst [(S.contents, 1)] T.contents =
          lookupFirst [] T.contents from if_neg (fun hf => hc hf.symm)]
        rfl]
      rfl
    simp only [h1, hst2]
    rw [mem_seeds_iff]
    constructor
    · rintro ⟨r1, hr1, r2, hr2, ha, hb, hk, hi, hj⟩
      have hr1S : r1 ∈ seqRows S w 1 := by
        rcases List.mem_append.mp hr1 with h | h
        · exact h
        · have := (mem_seqRows.mp h).1
          omega
      have hr2T : r2 ∈ seqRows T w 2 := by
        rcases List.mem_append.mp hr2 with h | h
        · have := (mem_seqRows.mp h).1
          omega
        · exact h
      exact (exists_window_pair_iff S T w 1 2 i j hsig hS hT).mp
        ⟨r1, hr1S, r2, hr2T, ha, hb, hk, hi, hj⟩
    · intro hrhs
      rcases (exists_window_pair_iff S T w 1 2 i j hsig hS hT).mpr hrhs with
        ⟨r1, hr1, r2, hr2, rest⟩
      exact ⟨r1, List.mem_append_left _ hr1, r2,
        List.mem_append_right _ hr2, rest⟩

theorem seeds_iff_equal_windows_witness :
    ((1, 0) ∈
      seeds (index_kmers (index_kmers emptyIndex 2
          (Sequence.mk [0, 1, 2] 4)).2 2 (Sequence.mk [1, 2, 3] 4)).2
        (index_kmers emptyIndex 2 (Sequence.mk [0, 1, 2] 4)).1
        (index_kmers (index_kmers emptyIndex 2
          (Sequence.mk [0, 1, 2] 4)).2 2 (Sequence.mk [1, 2, 3] 4)).1) ↔
      (1 + 2 ≤ (Sequence.mk [0, 1, 2] 4).contents.length ∧
        0 + 2 ≤ (Sequence.mk [1, 2, 3] 4).contents.length ∧
        (((Sequence.mk [0, 1, 2] 4).contents.drop 1).take 2 =
          (((Sequence.mk [1, 2, 3] 4).contents.drop 0).take 2))) :=
  seeds_iff_equal_windows (Sequence.mk [0, 1, 2] 4) (Sequence.mk [1, 2, 3] 4)
    2 (by decide) rfl (by decide) (by decide) 1 0

/-- The two construction-time assertion failures of KmerDBWrapper.__init__,
under the names the spec gives them (spec section 7). -/
inductive KmerError where
  | AlphabetTooLarge
  | WordLengthTooLarge
deriving DecidableEq, Repr

/-- An alphabet is an ordered list of letters; only its length and identity
matter to the construction checks. -/
structure KmerDBWrapperObj where
  alphabet : List Char
  wordlen : Nat
deriving DecidableEq, Repr

/-- Embeds the construction-time checks of KmerDBWrapper.__init__
(src/biseqt/kmers.py lines 113-125): assert len(alphabet) <= len(DIGITS),
then assert wordlen < (int_size - 1)/2 where int_size = 8 * sizeof(pointer);
over the integers the latter is 2 * wordlen + 1 < int_size. -/
def mkKmerDBWrapper (alphabet : List Char) (wordlen intSize : Nat) :
    Except KmerError KmerDBWrapperObj :=
  if alphabet.length ≤ DIGITS.length then
    if 2 * wordlen + 1 < intSize then Except.ok ⟨alphabet, wordlen⟩
    else Except.error KmerError.WordLengthTooLarge
  else Except.error KmerError.AlphabetTooLarge

theorem DIGITS_length : DIGITS.length = 36 := rfl

theorem wordlen_bound_iff (w I : Nat) :
    ((w : ℚ) < ((I : ℚ) - 1) / 2) ↔ 2 * w + 1 < I := by
  rw [lt_div_iff₀ (by norm_num : (0 : ℚ) < 2), lt_sub_iff_add_lt]
  constructor
  · intro h
    by_contra hn
    push_neg at hn
    have hq : (I : ℚ) ≤ 2 * w + 1 := by exact_mod_cast hn
    linarith
  · intro h
    have hq : ((2 * w + 1 : Nat) : ℚ) < I := by exact_mod_cast h
    push_cast at hq
    linarith

/-- C5: construction fails with AlphabetTooLarge for every alphabet of more
than 36 letters; for alphabets within the limit it fails with
WordLengthTooLarge exactly when the word length violates
w < (int_size - 1)/2, and succeeds otherwise. -/
theorem mkKmerDBWrapper_spec (alphabet : List Char) (wordlen intSize : Nat) :
    (36 < alphabet.length →
      mkKmerDBWrapper alphabet wordlen intSize =
        Except.error KmerError.AlphabetTooLarge) ∧
      (alphabet.length ≤ 36 →
        ¬ ((wordlen : ℚ) < ((intSize : ℚ) - 1) / 2) →
        mkKmerDBWrapper alphabet wordlen intSize =
          Except.error KmerError.WordLengthTooLarge) ∧
      (alphabet.length ≤ 36 →
        ((wordlen : ℚ) < ((intSize : ℚ) - 1) / 2) →
        mkKmerDBWrapper alphabet wordlen intSize =
          Except.ok ⟨alphabet, wordlen⟩) := by
  refine ⟨fun h => ?_, fun h hb => ?_, fun h hb => ?_⟩
  · unfold mkKmerDBWrapper
    rw [if_neg (by rw [DIGITS_length]; omega)]
  · rw [wordlen_bound_iff] at hb
    unfold mkKmerDBWrapper
    rw [if_pos (by rw [DIGITS_length]; omega), if_neg hb]
  · rw [wordlen_bound_iff] at hb
    unfold mkKmerDBWrapper
    rw [if_pos (by rw [DIGITS_length]; omega), if_pos hb]

theorem mkKmerDBWrapper_spec_witness :
    (36 < ([] : List Char).length →
      mkKmerDBWrapper [] 12 64 = Except.error KmerError.AlphabetTooLarge) ∧
      (([] : List Char).length ≤ 36 →
        ¬ ((12 : ℚ) < ((64 : ℚ) - 1) / 2) →
        mkKmerDBWrapper [] 12 64 =
          Except.error KmerError.WordLengthTooLarge) ∧
      (([] : List Char).length ≤ 36 → ((12 : ℚ) < ((64 : ℚ) - 1) / 2) →
        mkKmerDBWrapper [] 12 64 = Except.ok ⟨[], 12⟩) :=
  mkKmerDBWrapper_spec [] 12 64

/-- The attributes of a KmerCache object relevant to KmerIndex
construction. -/
structure KmerCacheObj where
  alphabet : List Char
  wordlen : Nat
deriving DecidableEq, Repr

structure KmerIndexObj where
  alphabet : List Char
  wordlen : Nat
  kmer_cache : Option KmerCacheObj
deriving DecidableEq, Repr

/-- Embeds KmerIndex.__init__ (src/biseqt/kmers.py lines 259-283): the base
class checks run first; when a cache is supplied, assert that its wordlen
and alphabet equal those of the index.  An assertion failure is modelled as
none. -/
def mkKmerIndex (alphabet : List Char) (wordlen intSize : Nat)
    (kmer_cache : Option KmerCacheObj) : Option KmerIndexObj :=
  match mkKmerDBWrapper alphabet wordlen intSize with
  | Except.error _ => none
  | Except.ok _ =>
    match kmer_cache with
    | none => some ⟨alphabet, wordlen, none⟩
    | some c =>
      if c.wordlen = wordlen ∧ c.alphabet = alphabet then
        some ⟨alphabet, wordlen, some c⟩
      else none

/-- C10: constructing a KmerIndex with an attached cache fails whenever the
word length or alphabet of the cache differs from that of the index, and when it
succeeds the index and its cache agree on both. -/
theorem mkKmerIndex_cache_agrees (alphabet : List Char)
    (wordlen intSize : Nat) (c : KmerCacheObj) :
    ((c.wordlen ≠ wordlen ∨ c.alphabet ≠ alphabet) →
      mkKmerIndex alphabet wordlen intSize (some c) = none) ∧
      ∀ idx, mkKmerIndex alphabet wordlen intSize (some c) = some idx →
        idx.kmer_cache = some c ∧ c.wordlen = idx.wordlen ∧
          c.alphabet = idx.alphabet := by
  constructor
  · intro h
    unfold mkKmerIndex
    cases hdb : mkKmerDBWrapper alphabet wordlen intSize with
    | error e => rfl
    | ok o =>
      show (if c.wordlen = wordlen ∧ c.alphabet = alphabet then
          some (KmerIndexObj.mk alphabet wordlen (some c)) else none) = none
      rw [if_neg (fun hand => h.elim (fun hne => hne hand.1)
        (fun hne => hne hand.2))]
  · intro idx hidx
    unfold mkKmerIndex at hidx
    cases hdb : mkKmerDBWrapper alphabet wordlen intSize with
    | error e =>
      rw [hdb] at hidx
      cases hidx
    | ok o =>
      rw [hdb] at hidx
      have hidx2 : (if c.wordlen = wordlen ∧ c.alphabet = alphabet then
          some (KmerIndexObj.mk alphabet wordlen (some c)) else none) =
          some idx := hidx
      by_cases hmatch : c.wordlen = wordlen ∧ c.alphabet = alphabet
      · rw [if_pos hmatch, Option.some.injEq] at hidx2
        subst hidx2
        exact ⟨rfl, hmatch.1, hmatch.2⟩
      · rw [if_neg hmatch] at hidx2
        cases hidx2

theorem mkKmerIndex_cache_agrees_witness :
    (((KmerCacheObj.mk [] 3).wordlen ≠ 5 ∨
        (KmerCacheObj.mk [] 3).alphabet ≠ ([] : List Char)) →
      mkKmerIndex [] 5 64 (some (KmerCacheObj.mk [] 3)) = none) ∧
      ∀ idx, mkKmerIndex [] 5 64 (some (KmerCacheObj.mk [] 3)) = some idx →
        idx.kmer_cache = some (KmerCacheObj.mk [] 3) ∧
          (KmerCacheObj.mk [] 3).wordlen = idx.wordlen ∧
          (KmerCacheObj.mk [] 3).alphabet = idx.alphabet :=
  mkKmerIndex_cache_agrees [] 5 64 (KmerCacheObj.mk [] 3)

/-- Direction of a reported overlap edge in OverlapBuilder.build: ST is the
edge (S_name, T_name), TS the edge (T_name, S_name). -/
inductive EdgeDir where
  | ST
  | TS
deriving DecidableEq, Repr

/-- Embeds the per-pair edge decision of OverlapBuilder.build
(src/align/assembly.py lines 498-519): with lmargin = abs(S_idx - T_idx)
and rmargin = abs(S_idx + S_len - (T_idx + T_len)), the pair is skipped
(continue: no edge) when either margin is strictly below min_margin;
otherwise the edge direction comes from which start index is zero, with
containment ties broken by length.  The result none covers every case in
which no edge is appended (including the equal-length containment case and
the RuntimeError branch that the assert S_idx * T_idx == 0 makes
unreachable). -/
def buildEdgeDecision (S_idx T_idx S_len T_len min_margin : Int) :
    Option EdgeDir :=
  if |S_idx - T_idx| < min_margin ∨
      |S_idx + S_len - (T_idx + T_len)| < min_margin then none
  else if S_idx = 0 ∧ T_idx = 0 then
    if S_len < T_len then some EdgeDir.ST
    else if T_len < S_len then some EdgeDir.TS
    else none
  else if T_idx = 0 then some EdgeDir.ST
  else if S_idx = 0 then some EdgeDir.TS
  else none

/-- C8 counterexample: with min_margin = 5, S_idx = 0, T_idx = 5,
S_len = 20, T_len = 10 both corner margins equal min_margin, so neither
margin exceeds it, yet build reports the directed edge (T, S) instead of
returning an AmbiguousOverlap result. -/
theorem buildEdgeDecision_margin_eq_reports_edge :
    |(0 : Int) - 5| ≤ 5 ∧ |(0 : Int) + 20 - (5 + 10)| ≤ 5 ∧
      buildEdgeDecision 0 5 20 10 5 = some EdgeDir.TS := by
  decide

/-- C8 amended: when one of the two corner margins is strictly below
min_margin the pair is silently skipped: no directed overlap edge is
reported, and no AmbiguousOverlap value exists in the code; margins equal
to min_margin are reported as normal overlap edges. -/
theorem buildEdgeDecision_margin_skip (S_idx T_idx S_len T_len m : Int)
    (h : |S_idx - T_idx| < m ∨ |S_idx + S_len - (T_idx + T_len)| < m) :
    buildEdgeDecision S_idx T_idx S_len T_len m = none := by
  unfold buildEdgeDecision
  rw [if_pos h]

theorem buildEdgeDecision_margin_skip_witness :
    buildEdgeDecision 0 5 20 10 6 = none :=
  buildEdgeDecision_margin_skip 0 5 20 10 6 (Or.inl (by decide))

/-- Modelled from the spec: the error function (scipy.special.erf as used in
src/experiments/band_radius.py), defined by its standard integral. -/
noncomputable def erf (x : ℝ) : ℝ :=
  (2 / Real.sqrt Real.pi) * ∫ t in (0 : ℝ)..x, Real.exp (-(t ^ 2))

theorem erf_monotone : Monotone erf := by
  intro x y hxy
  unfold erf
  have hcont : Continuous fun t : ℝ => Real.exp (-(t ^ 2)) :=
    Real.continuous_exp.comp (continuous_pow 2).neg
  have h1 : IntervalIntegrable (fun t : ℝ => Real.exp (-(t ^ 2)))
      MeasureTheory.volume 0 x := hcont.intervalIntegrable 0 x
  have h2 : IntervalIntegrable (fun t : ℝ => Real.exp (-(t ^ 2)))
      MeasureTheory.volume x y := hcont.intervalIntegrable x y
  have hadd := intervalIntegral.integral_add_adjacent_intervals h1 h2
  have hnn : 0 ≤ ∫ t in x..y, Real.exp (-(t ^ 2)) :=
    intervalIntegral.integral_nonneg hxy (fun t _ => (Real.exp_pos _).le)
  have hc : 0 ≤ 2 / Real.sqrt Real.pi :=
    div_nonneg (by norm_num) (Real.sqrt_nonneg _)
  have hle : (∫ t in (0 : ℝ)..x, Real.exp (-(t ^ 2))) ≤
      ∫ t in (0 : ℝ)..y, Real.exp (-(t ^ 2)) := by
    rw [← hadd]
    linarith
  exact mul_le_mul_of_nonneg_left hle hc

theorem erf_zero : erf 0 = 0 := by
  unfold erf
  rw [intervalIntegral.integral_same, mul_zero]

/-- Modelled from the spec: band_radius is named by spec section 4.E but not
implemented under src/; following the cutoff computation of
src/experiments/band_radius.py (the chosen radius is the first r with
erf(r / (2 sqrt(g K))) at or above the sensitivity), these are the
admissible radii for length K, gap probability g and sensitivity s. -/
def bandRadiusSet (K g s : ℝ) : Set ℝ :=
  {r : ℝ | 0 ≤ r ∧ s ≤ erf (r / (2 * Real.sqrt (g * K)))}

/-- Modelled from the spec: band_radius(K, g, s) is the smallest admissible
radius. -/
noncomputable def band_radius (K g s : ℝ) : ℝ :=
  sInf (bandRadiusSet K g s)

/-- C7: band_radius is monotone: jointly non-decreasing in the length K,
the gap probability g and the sensitivity s (hence non-decreasing in each
argument separately). -/
theorem band_radius_monotone (K K2 g g2 s s2 : ℝ)
    (hK : 0 < K) (hg : 0 < g) (hKK : K ≤ K2) (hgg : g ≤ g2) (hss : s ≤ s2)
    (hne : (bandRadiusSet K2 g2 s2).Nonempty) :
    band_radius K g s ≤ band_radius K2 g2 s2 := by
  apply csInf_le_csInf
  · exact ⟨0, fun r hr => hr.1⟩
  · exact hne
  · intro r hr
    obtain ⟨hr0, hrs⟩ := hr
    refine ⟨hr0, le_trans hss (le_trans hrs (erf_monotone ?_))⟩
    have hgK : 0 < g * K := mul_pos hg hK
    have hgK2 : g * K ≤ g2 * K2 :=
      mul_le_mul hgg hKK hK.le (le_trans hg.le hgg)
    have hs1 : 0 < 2 * Real.sqrt (g * K) := by
      have := Real.sqrt_pos.mpr hgK
      linarith
    have hs2 : 2 * Real.sqrt (g * K) ≤ 2 * Real.sqrt (g2 * K2) := by
      have := Real.sqrt_le_sqrt hgK2
      linarith
    exact div_le_div_of_nonneg_left hr0 hs1 hs2

theorem band_radius_monotone_witness :
    band_radius 1 1 (-1) ≤ band_radius 2 1 0 :=
  band_radius_monotone 1 2 1 1 (-1) 0 one_pos one_pos (by norm_num)
    (le_refl 1) (by norm_num)
    ⟨0, le_refl 0, by rw [zero_div, erf_zero]⟩

end AlignPy
